import Mathlib

/-!
Shallow embedding of the Volatria market-data core, translated from the Go
sources: the sqlite-backed persistent store
(`internal/database/database.go`), the API middleware (rate limiter and
circuit breaker), the TTL cache and the request handlers (`internal/api`).

Machine reals (`float64` prices) are modelled as `ℚ`; timestamps
(`time.Time` / `time.Duration`, int64 nanoseconds) as `ℤ`; the store's
rows as an explicit list of rows.  `rand.Float64()` is modelled by an
explicit stream `u : ℕ → ℚ` of draws with `0 ≤ u i < 1`.
-/

namespace Volatria

/-- A row of the `stocks` table: `{symbol TEXT, price REAL, timestamp DATETIME}`,
primary key `(symbol, timestamp)`. -/
structure Stock where
  symbol : String
  price : ℚ
  timestamp : ℤ
deriving DecidableEq, Repr

abbrev Rows := List Stock

/-- Error outcomes of store operations: `sql.ErrNoRows`, a UNIQUE-constraint
violation of the `(symbol, timestamp)` primary key, and the wrapped
`failed to store ... after 3 attempts` error. -/
inductive DBError where
  | noRows
  | uniqueViolation
  | storeFailure
deriving DecidableEq, Repr

/-- Does the table already hold a row with this `(symbol, timestamp)` key? -/
def hasKey (rows : Rows) (sym : String) (ts : ℤ) : Bool :=
  rows.any (fun r => r.symbol == sym && r.timestamp == ts)

/-- One `INSERT INTO stocks (symbol, price, timestamp) VALUES (?, ?, ?)`:
the `(symbol, timestamp)` primary key makes a duplicate insert fail with a
UNIQUE-constraint error; otherwise the row is appended. -/
def insertStock (rows : Rows) (sym : String) (price : ℚ) (ts : ℤ) :
    Except DBError Rows :=
  if hasKey rows sym ts then .error .uniqueViolation
  else .ok (rows ++ [⟨sym, price, ts⟩])

/-- The retry loop of `StoreStockWithTimestamp`: up to `attempts` tries of the
same insert (the backoff sleeps do not affect the result), returning the
wrapped failure when all attempts are exhausted. -/
def storeLoop (rows : Rows) (sym : String) (price : ℚ) (ts : ℤ) :
    Nat → Except DBError Rows
  | 0 => .error .storeFailure
  | n + 1 =>
    match insertStock rows sym price ts with
    | .ok r => .ok r
    | .error _ => storeLoop rows sym price ts n

/-- `Database.StoreStockWithTimestamp`: three insert attempts with backoff,
then `failed to store stock with timestamp after 3 attempts`. -/
def StoreStockWithTimestamp (rows : Rows) (sym : String) (price : ℚ) (ts : ℤ) :
    Except DBError Rows :=
  storeLoop rows sym price ts 3

/-- `WHERE symbol = ?`. -/
def symbolRows (rows : Rows) (sym : String) : Rows :=
  rows.filter (fun r => r.symbol == sym)

/-- One comparison step of the max-timestamp scan. -/
def maxStep (acc : Option Stock) (r : Stock) : Option Stock :=
  match acc with
  | none => some r
  | some b => if r.timestamp > b.timestamp then some r else some b

/-- `ORDER BY timestamp DESC LIMIT 1`: the stored row with the greatest
timestamp (first such row when timestamps tie, which the primary key rules
out within one symbol). -/
def maxTsRow (rows : Rows) : Option Stock :=
  rows.foldl maxStep none

/-- `Database.GetLatestPrice`: price of the most recent row for the symbol;
`sql.ErrNoRows` when the symbol has no rows.  The query is deterministic, so
its three retry attempts collapse to one. -/
def GetLatestPrice (rows : Rows) (sym : String) : Except DBError ℚ :=
  match maxTsRow (symbolRows rows sym) with
  | some r => .ok r.price
  | none => .error .noRows

/-- Ordering used by `ORDER BY timestamp`. -/
def tsLE (a b : Stock) : Prop := a.timestamp ≤ b.timestamp

instance : DecidableRel tsLE :=
  fun a b => inferInstanceAs (Decidable (a.timestamp ≤ b.timestamp))

instance : IsTotal Stock tsLE :=
  ⟨fun a b => Int.le_total a.timestamp b.timestamp⟩

instance : IsTrans Stock tsLE :=
  ⟨fun _ _ _ hab hbc => le_trans hab hbc⟩

instance : IsTrans Stock (fun a b : Stock => a.timestamp < b.timestamp) :=
  ⟨fun _ _ _ hab hbc => lt_trans hab hbc⟩

/-- `SELECT symbol, price, timestamp FROM stocks WHERE symbol = ? AND
timestamp BETWEEN ? AND ? ORDER BY timestamp`. -/
def selectRange (rows : Rows) (sym : String) (start endT : ℤ) : Rows :=
  (rows.filter
    (fun r => r.symbol == sym && start ≤ r.timestamp && r.timestamp ≤ endT)).insertionSort tsLE

/-- One iteration step of `generateSyntheticData`: starting at index `i` with
the running price, emit `n` synthetic rows.  `u` is the stream of
`rand.Float64()` draws, consumed one per row. -/
def synLoop (u : ℕ → ℚ) (sym : String) (start interval : ℤ) :
    ℕ → ℕ → ℚ → Rows
  | _, 0, _ => []
  | i, n + 1, price =>
    let change := (u i * 4 - 2) / 100
    let price1 := price * (1 + change)
    ⟨sym, price1, start + (i : ℤ) * interval⟩ ::
      synLoop u sym start interval (i + 1) n price1

/-- `generateSyntheticData(symbol, basePrice, start, end, count)`:
`interval = (end - start) / count` as Go int64 division (truncation toward
zero), then `count` rows at `start + i*interval` with a ±2% random walk of
the price. -/
def generateSyntheticData (u : ℕ → ℚ) (sym : String) (basePrice : ℚ)
    (start endT : ℤ) (count : ℕ) : Rows :=
  let interval : ℤ := (endT - start).tdiv (count : ℤ)
  synLoop u sym start interval 0 count basePrice

/-- `Database.GetHistoricalPrices`: real rows in range sorted by timestamp;
`sql.ErrNoRows` when there are none; synthetic continuation appended when
fewer than 30 exist and the symbol has a latest price. -/
def GetHistoricalPrices (u : ℕ → ℚ) (rows : Rows) (sym : String)
    (start endT : ℤ) : Except DBError Rows :=
  let stocks := selectRange rows sym start endT
  if stocks.length = 0 then .error .noRows
  else if stocks.length < 30 then
    match maxTsRow (symbolRows rows sym) with
    | none => .ok stocks
    | some r =>
      .ok (stocks ++ generateSyntheticData u sym r.price start endT (30 - stocks.length))
  else .ok stocks

end Volatria

namespace Volatria

/-- A stream of draws all equal to 1/2, giving a zero price change. -/
def uHalf : ℕ → ℚ := fun _ => (1 : ℚ) / 2

/-- Membership in the accumulator-or-list for the `maxTsRow` fold. -/
theorem maxStep_fold_mem (l : Rows) :
    ∀ (acc : Option Stock) (b : Stock),
      l.foldl maxStep acc = some b → b ∈ l ∨ acc = some b := by
  induction l with
  | nil => intro acc b h; exact Or.inr h
  | cons x xs ih =>
    intro acc b h
    simp only [List.foldl_cons] at h
    rcases ih _ b h with hmem | hacc
    · exact Or.inl (List.mem_cons_of_mem _ hmem)
    · cases acc with
      | none =>
        simp only [maxStep] at hacc
        injection hacc with h2
        exact Or.inl (h2 ▸ List.mem_cons_self x xs)
      | some a =>
        by_cases hgt : x.timestamp > a.timestamp
        · simp only [maxStep, if_pos hgt] at hacc
          injection hacc with h2
          exact Or.inl (h2 ▸ List.mem_cons_self x xs)
        · simp only [maxStep, if_neg hgt] at hacc
          exact Or.inr hacc

theorem hasKey_false_of_fresh (rows : Rows) (sym : String) (ts : ℤ)
    (h : ∀ r ∈ rows, r.symbol = sym → r.timestamp ≠ ts) :
    hasKey rows sym ts = false := by
  simp only [hasKey, List.any_eq_false, Bool.and_eq_true, beq_iff_eq, not_and]
  intro r hr hsym
  exact fun hts => h r hr hsym hts

/-- C3 counterexample: re-storing the already-present quote
`("AAPL", 150, 100)` does not succeed as a no-op; the plain `INSERT`
violates the `(symbol, timestamp)` primary key on every attempt and the
call returns the wrapped store failure. -/
theorem store_retry_not_idempotent_cex :
    StoreStockWithTimestamp [⟨"AAPL", 150, 100⟩] "AAPL" 150 100 =
      .error .storeFailure := by rfl

/-- C3 (amended): storing a quote whose `(symbol, timestamp)` pair is already
present fails with the store-failure error after exhausting its three
attempts — it is not an insert-or-ignore no-op. -/
theorem store_duplicate_key_fails (rows : Rows) (sym : String) (p : ℚ) (ts : ℤ)
    (hdup : hasKey rows sym ts = true) :
    StoreStockWithTimestamp rows sym p ts = .error .storeFailure := by
  simp [StoreStockWithTimestamp, storeLoop, insertStock, hdup]

theorem store_duplicate_key_fails_witness :
    StoreStockWithTimestamp [⟨"MSFT", 310, 7⟩] "MSFT" 305 7 =
      .error .storeFailure :=
  store_duplicate_key_fails [⟨"MSFT", 310, 7⟩] "MSFT" 305 7 (by decide)

/-- C7: storing a quote whose timestamp is strictly more recent than every
stored quote of that symbol succeeds, and `GetLatestPrice` then returns
exactly that price. -/
theorem store_then_latest (rows : Rows) (sym : String) (p : ℚ) (ts : ℤ)
    (hrecent : ∀ r ∈ rows, r.symbol = sym → r.timestamp < ts) :
    StoreStockWithTimestamp rows sym p ts = .ok (rows ++ [⟨sym, p, ts⟩]) ∧
      GetLatestPrice (rows ++ [⟨sym, p, ts⟩]) sym = .ok p := by
  have hfresh : hasKey rows sym ts = false :=
    hasKey_false_of_fresh rows sym ts
      (fun r hr hsym => ne_of_lt (hrecent r hr hsym))
  constructor
  · simp [StoreStockWithTimestamp, storeLoop, insertStock, hfresh]
  · have hsplit : symbolRows (rows ++ [⟨sym, p, ts⟩]) sym =
        symbolRows rows sym ++ [⟨sym, p, ts⟩] := by
      simp [symbolRows, List.filter_append]
    unfold GetLatestPrice
    rw [hsplit]
    unfold maxTsRow
    rw [List.foldl_append]
    rcases hacc : (symbolRows rows sym).foldl maxStep none with _ | b
    · simp [maxStep]
    · have hb : b ∈ symbolRows rows sym ∨ (none : Option Stock) = some b :=
        maxStep_fold_mem _ none b hacc
      rcases hb with hb | hb
      · have hmem := List.mem_filter.mp hb
        have hsym : b.symbol = sym := by
          have := hmem.2
          simpa using this
        have hlt : b.timestamp < ts := hrecent b hmem.1 hsym
        simp [maxStep, hlt]
      · exact absurd hb (by simp)

theorem store_then_latest_witness :
    StoreStockWithTimestamp [⟨"AAPL", 150, 1⟩, ⟨"AAPL", 151, 2⟩, ⟨"IBM", 99, 9⟩]
        "AAPL" 149 3 =
      .ok [⟨"AAPL", 150, 1⟩, ⟨"AAPL", 151, 2⟩, ⟨"IBM", 99, 9⟩, ⟨"AAPL", 149, 3⟩] ∧
    GetLatestPrice
        [⟨"AAPL", 150, 1⟩, ⟨"AAPL", 151, 2⟩, ⟨"IBM", 99, 9⟩, ⟨"AAPL", 149, 3⟩]
        "AAPL" = .ok 149 :=
  store_then_latest [⟨"AAPL", 150, 1⟩, ⟨"AAPL", 151, 2⟩, ⟨"IBM", 99, 9⟩]
    "AAPL" 149 3 (by decide)

/-- The rows selected by the range query are exactly the stored rows of the
symbol whose timestamp lies in `[start, end]`. -/
theorem mem_selectRange (rows : Rows) (sym : String) (start endT : ℤ)
    (r : Stock) :
    r ∈ selectRange rows sym start endT ↔
      r ∈ rows ∧ r.symbol = sym ∧ start ≤ r.timestamp ∧ r.timestamp ≤ endT := by
  unfold selectRange
  rw [(List.perm_insertionSort tsLE _).mem_iff, List.mem_filter]
  simp [and_assoc]

/-- C1: a history request over a window holding zero real quotes fails with
the no-rows error, and every successful result contains at least one real
stored quote from the window — never a zero-real-point success. -/
theorem historical_zero_real_notfound (u : ℕ → ℚ) (rows : Rows) (sym : String)
    (start endT : ℤ) :
    ((∀ r ∈ rows, r.symbol = sym →
        ¬(start ≤ r.timestamp ∧ r.timestamp ≤ endT)) →
      GetHistoricalPrices u rows sym start endT = .error .noRows) ∧
    (∀ l, GetHistoricalPrices u rows sym start endT = .ok l →
      ∃ r ∈ rows,
        (r.symbol = sym ∧ start ≤ r.timestamp ∧ r.timestamp ≤ endT) ∧ r ∈ l) := by
  constructor
  · intro hempty
    have hsel : selectRange rows sym start endT = [] := by
      apply List.eq_nil_iff_forall_not_mem.mpr
      intro r hr
      have hp := (mem_selectRange rows sym start endT r).mp hr
      exact hempty r hp.1 hp.2.1 ⟨hp.2.2.1, hp.2.2.2⟩
    simp [GetHistoricalPrices, hsel]
  · intro l hl
    simp only [GetHistoricalPrices] at hl
    have hne : selectRange rows sym start endT ≠ [] := by
      intro h
      rw [h] at hl
      simp at hl
    obtain ⟨r, hr⟩ := List.exists_mem_of_ne_nil _ hne
    have hp := (mem_selectRange rows sym start endT r).mp hr
    refine ⟨r, hp.1, ⟨hp.2.1, hp.2.2.1, hp.2.2.2⟩, ?_⟩
    split at hl
    · exact absurd hl (by simp)
    · split at hl
      · split at hl
        · injection hl with h2
          exact h2 ▸ hr
        · injection hl with h2
          exact h2 ▸ List.mem_append_left _ hr
      · injection hl with h2
        exact h2 ▸ hr

theorem historical_zero_real_notfound_witness :
    GetHistoricalPrices uHalf [⟨"AAPL", 150, 5⟩] "AAPL" 10 20 =
      .error .noRows :=
  (historical_zero_real_notfound uHalf [⟨"AAPL", 150, 5⟩] "AAPL" 10 20).1
    (by decide)

/-- C2 counterexample: with one real quote at timestamp 50 inside the window
`[0, 100]`, the returned series starts with that quote and then appends
synthetic rows whose timestamps restart at 0, so the series is not sorted
ascending by timestamp. -/
theorem historical_unsorted_cex :
    ∃ l, GetHistoricalPrices uHalf [⟨"AAPL", 100, 50⟩] "AAPL" 0 100 =
        .ok l ∧ ¬ List.Sorted tsLE l := by
  refine
    ⟨(GetHistoricalPrices uHalf [⟨"AAPL", 100, 50⟩] "AAPL" 0 100).toOption.getD [],
      by rfl, by decide⟩

/-- C2 (amended): every successful history result is the real rows of the
window sorted ascending by timestamp, followed by the synthetic continuation
rows (none when thirty or more real rows exist); the combined series is
sorted ascending whenever no synthetic rows are appended, but when they are,
their timestamps restart at `start` and the whole series need not be
sorted. -/
theorem historical_real_rows_sorted (u : ℕ → ℚ) (rows : Rows) (sym : String)
    (start endT : ℤ) (l : Rows)
    (hl : GetHistoricalPrices u rows sym start endT = .ok l) :
    List.Sorted tsLE (selectRange rows sym start endT) ∧
    (∃ syn, l = selectRange rows sym start endT ++ syn ∧
      (30 ≤ (selectRange rows sym start endT).length → syn = [])) ∧
    (30 ≤ (selectRange rows sym start endT).length → List.Sorted tsLE l) := by
  have hsorted : List.Sorted tsLE (selectRange rows sym start endT) := by
    unfold selectRange
    exact List.sorted_insertionSort tsLE _
  have hstruct : ∃ syn, l = selectRange rows sym start endT ++ syn ∧
      (30 ≤ (selectRange rows sym start endT).length → syn = []) := by
    simp only [GetHistoricalPrices] at hl
    split at hl
    · exact absurd hl (by simp)
    · split at hl
      · split at hl
        · injection hl with h2
          exact ⟨[], by simp [h2], fun _ => rfl⟩
        · injection hl with h2
          refine ⟨_, h2.symm, fun h30 => ?_⟩
          rename_i hlt _ _
          exact absurd h30 (by omega)
      · injection hl with h2
        exact ⟨[], by simp [h2], fun _ => rfl⟩
  refine ⟨hsorted, hstruct, fun h30 => ?_⟩
  obtain ⟨syn, hsyn, hempty⟩ := hstruct
  rw [hsyn, hempty h30, List.append_nil]
  exact hsorted

theorem historical_real_rows_sorted_witness :
    List.Sorted tsLE (selectRange [⟨"AAPL", 100, 50⟩] "AAPL" 0 100) :=
  (historical_real_rows_sorted uHalf [⟨"AAPL", 100, 50⟩] "AAPL" 0 100
    ((GetHistoricalPrices uHalf [⟨"AAPL", 100, 50⟩] "AAPL" 0 100).toOption.getD [])
    (by rfl)).1

/-- The synthetic random walk moves by at most two percent per step. -/
def withinTwoPercent (p q : ℚ) : Prop :=
  (98 / 100) * p ≤ q ∧ q ≤ (102 / 100) * p

/-- The first synthetic row produced by `synLoop` sits at `start + i * interval`. -/
theorem synLoop_head (u : ℕ → ℚ) (sym : String) (start interval : ℤ) :
    ∀ (n i : ℕ) (price : ℚ),
      ∀ b ∈ (synLoop u sym start interval i n price).head?,
        b.timestamp = start + (i : ℤ) * interval := by
  intro n i price b hb
  cases n with
  | zero => simp [synLoop] at hb
  | succ m =>
    simp only [synLoop, List.head?_cons, Option.mem_def, Option.some.injEq] at hb
    rw [← hb]

/-- Each synthetic timestamp is `start + j * interval` for a loop index `j`. -/
theorem synLoop_ts (u : ℕ → ℚ) (sym : String) (start interval : ℤ) :
    ∀ (n i : ℕ) (price : ℚ),
      ∀ r ∈ synLoop u sym start interval i n price,
        ∃ j : ℕ, i ≤ j ∧ j < i + n ∧ r.timestamp = start + (j : ℤ) * interval := by
  intro n
  induction n with
  | zero => intro i price r hr; simp [synLoop] at hr
  | succ m ih =>
    intro i price r hr
    simp only [synLoop, List.mem_cons] at hr
    rcases hr with hr | hr
    · exact ⟨i, le_refl i, by omega, by rw [hr]⟩
    · obtain ⟨j, hj1, hj2, hj3⟩ := ih (i + 1) _ r hr
      exact ⟨j, by omega, by omega, hj3⟩

/-- With a positive interval the synthetic timestamps strictly increase. -/
theorem synLoop_ts_increasing (u : ℕ → ℚ) (sym : String) (start interval : ℤ)
    (hint : 1 ≤ interval) :
    ∀ (n i : ℕ) (price : ℚ),
      List.Chain' (fun a b : Stock => a.timestamp < b.timestamp)
        (synLoop u sym start interval i n price) := by
  intro n
  induction n with
  | zero => intro i price; simp [synLoop]
  | succ m ih =>
    intro i price
    simp only [synLoop]
    rw [List.chain'_cons']
    refine ⟨fun b hb => ?_, ih (i + 1) _⟩
    have hts := synLoop_head u sym start interval m (i + 1) _ b hb
    rw [hts]
    have : (i : ℤ) * interval < ((i : ℤ) + 1) * interval := by nlinarith
    push_cast
    linarith

/-- Prices along the synthetic walk stay positive and move by at most two
percent per step. -/
theorem synLoop_prices (u : ℕ → ℚ) (sym : String) (start interval : ℤ)
    (hu : ∀ i, 0 ≤ u i ∧ u i < 1) :
    ∀ (n i : ℕ) (price : ℚ), 0 < price →
      List.Chain withinTwoPercent price
        ((synLoop u sym start interval i n price).map Stock.price) ∧
      ∀ r ∈ synLoop u sym start interval i n price, 0 < r.price := by
  intro n
  induction n with
  | zero => intro i price _; constructor <;> simp [synLoop]
  | succ m ih =>
    intro i price hpos
    have hui := hu i
    have hlow : (98 : ℚ) / 100 ≤ 1 + (u i * 4 - 2) / 100 := by linarith
    have hhigh : 1 + (u i * 4 - 2) / 100 ≤ (102 : ℚ) / 100 := by linarith
    have hpos1 : 0 < price * (1 + (u i * 4 - 2) / 100) := by nlinarith
    have hstep : withinTwoPercent price (price * (1 + (u i * 4 - 2) / 100)) := by
      constructor
      · nlinarith
      · nlinarith
    obtain ⟨hchain, hallpos⟩ := ih (i + 1) (price * (1 + (u i * 4 - 2) / 100)) hpos1
    constructor
    · simp only [synLoop, List.map_cons]
      exact List.Chain.cons hstep hchain
    · intro r hr
      simp only [synLoop, List.mem_cons] at hr
      rcases hr with hr | hr
      · rw [hr]; exact hpos1
      · exact hallpos r hr

/-- C6 counterexample: `basePrice = 100 > 0`, window `[0, 1)` with
`start < end`, `count = 2 > 0`, draws the code can produce — yet because Go
computes `interval = (end-start)/count = 0` by integer division, both
synthetic timestamps equal `start`, so they are not strictly increasing. -/
theorem synthetic_not_increasing_cex :
    (0 : ℚ) < 100 ∧ (0 : ℤ) < 1 ∧ (0 : ℕ) < 2 ∧
      (0 ≤ uHalf 0 ∧ uHalf 0 < 1) ∧ (0 ≤ uHalf 1 ∧ uHalf 1 < 1) ∧
      ¬ List.Chain' (fun a b : Stock => a.timestamp < b.timestamp)
          (generateSyntheticData uHalf "AAPL" 100 0 1 2) := by
  refine ⟨by norm_num, by norm_num, by norm_num, by norm_num [uHalf],
    by norm_num [uHalf], ?_⟩
  rw [List.chain'_iff_pairwise]
  decide

/-- C6 (amended): for positive base price, `start < end`, positive count and
draws in `[0, 1)`, every synthetic price moves by at most 2% per step
(starting from the base price), all prices are positive, and all timestamps
lie in `[start, end)`; provided additionally that the window spans at least
`count` nanoseconds (so the truncated interval is at least one), the
timestamps are strictly increasing. -/
theorem synthetic_data_bounded (u : ℕ → ℚ) (sym : String) (basePrice : ℚ)
    (start endT : ℤ) (count : ℕ)
    (hbase : 0 < basePrice) (hlt : start < endT) (hcount : 0 < count)
    (hu : ∀ i, 0 ≤ u i ∧ u i < 1) :
    (List.Chain withinTwoPercent basePrice
        ((generateSyntheticData u sym basePrice start endT count).map Stock.price) ∧
      (∀ r ∈ generateSyntheticData u sym basePrice start endT count,
        0 < r.price) ∧
      (∀ r ∈ generateSyntheticData u sym basePrice start endT count,
        start ≤ r.timestamp ∧ r.timestamp < endT)) ∧
    ((count : ℤ) ≤ endT - start →
      List.Chain' (fun a b : Stock => a.timestamp < b.timestamp)
        (generateSyntheticData u sym basePrice start endT count)) := by
  have hd : (0 : ℤ) < endT - start := by omega
  have htdiv : (endT - start).tdiv (count : ℤ) = (endT - start) / (count : ℤ) := by
    exact Int.tdiv_eq_ediv (by omega) (by positivity)
  have hc : (0 : ℤ) < (count : ℤ) := by exact_mod_cast hcount
  have hintnn : 0 ≤ (endT - start).tdiv (count : ℤ) := by
    rw [htdiv]
    exact Int.ediv_nonneg (by omega) (by omega)
  have hcmul : (count : ℤ) * ((endT - start) / (count : ℤ)) ≤ endT - start := by
    have := Int.emod_nonneg (endT - start) (by omega : (count : ℤ) ≠ 0)
    have hdm := Int.ediv_add_emod (endT - start) (count : ℤ)
    omega
  constructor
  · obtain ⟨hchain, hpos⟩ :=
      synLoop_prices u sym start ((endT - start).tdiv (count : ℤ)) hu count 0
        basePrice hbase
    refine ⟨hchain, hpos, ?_⟩
    intro r hr
    obtain ⟨j, _, hj2, hj3⟩ :=
      synLoop_ts u sym start ((endT - start).tdiv (count : ℤ)) count 0 basePrice r hr
    rw [hj3]
    constructor
    · have : 0 ≤ (j : ℤ) * (endT - start).tdiv (count : ℤ) :=
        mul_nonneg (by positivity) hintnn
      omega
    · have hjlt : (j : ℤ) ≤ (count : ℤ) - 1 := by
        have : j < count := by omega
        omega
      have h1 : (j : ℤ) * (endT - start).tdiv (count : ℤ) ≤
          ((count : ℤ) - 1) * (endT - start).tdiv (count : ℤ) :=
        mul_le_mul_of_nonneg_right hjlt hintnn
      have h2 : ((count : ℤ) - 1) * (endT - start).tdiv (count : ℤ) ≤
          (endT - start) - (endT - start).tdiv (count : ℤ) := by
        rw [htdiv] at *
        nlinarith
      -- timestamps stay below endT: even when the interval is 0 the points
      -- sit at start < endT
      by_cases hz : (endT - start).tdiv (count : ℤ) = 0
      · rw [hz] at hj3 ⊢
        omega
      · have hge1 : 1 ≤ (endT - start).tdiv (count : ℤ) := by omega
        omega
  · intro hwide
    have hge1 : 1 ≤ (endT - start).tdiv (count : ℤ) := by
      rw [htdiv]
      rw [Int.le_ediv_iff_mul_le (by omega)]
      omega
    exact synLoop_ts_increasing u sym start _ hge1 count 0 basePrice

theorem synthetic_data_bounded_witness :
    List.Chain' (fun a b : Stock => a.timestamp < b.timestamp)
      (generateSyntheticData uHalf "AAPL" 100 0 100 2) :=
  (synthetic_data_bounded uHalf "AAPL" 100 0 100 2 (by norm_num) (by norm_num)
    (by norm_num) (fun i => by norm_num [uHalf])).2 (by norm_num)

end Volatria

namespace Volatria

/-- `api.CircuitBreaker`: `failures`, `lastFailure`, configured `threshold`
and `timeout` (nanoseconds). -/
structure CircuitBreaker where
  failures : ℕ
  lastFailure : ℤ
  threshold : ℕ
  timeout : ℤ
deriving DecidableEq, Repr

/-- Result of one request through `CircuitBreaker.Protect`: rejected with
503 before handler logic runs, or served by the handler with its status. -/
inductive BreakerOutcome where
  | rejected
  | served (status : ℕ)
deriving DecidableEq, Repr

/-- The post-handler half of `Protect`: a response with status `>= 500`
increments `failures` and stamps `lastFailure`. -/
def protectRun (cb : CircuitBreaker) (now : ℤ) (status : ℕ) :
    CircuitBreaker × BreakerOutcome :=
  if 500 ≤ status then
    ({ cb with failures := cb.failures + 1, lastFailure := now },
      .served status)
  else (cb, .served status)

/-- `CircuitBreaker.Protect` on one request arriving at `now` whose handler
would answer `status`: when `failures >= threshold` and the last failure is
within `timeout`, reject with 503 and skip the handler; when the timeout has
elapsed, reset `failures` to 0 and pass through; otherwise pass through. -/
def protect (cb : CircuitBreaker) (now : ℤ) (status : ℕ) :
    CircuitBreaker × BreakerOutcome :=
  if cb.threshold ≤ cb.failures then
    if now - cb.lastFailure < cb.timeout then (cb, .rejected)
    else protectRun { cb with failures := 0 } now status
  else protectRun cb now status

/-- Run a sequence of requests `(arrival time, handler status)` through the
breaker, collecting each request's outcome. -/
def runBreaker (cb : CircuitBreaker) : List (ℤ × ℕ) →
    CircuitBreaker × List BreakerOutcome
  | [] => (cb, [])
  | (t, s) :: rest =>
    let step := protect cb t s
    let tail := runBreaker step.1 rest
    (tail.1, step.2 :: tail.2)

/-- Number of server-fault responses in a request trace. -/
def countFaults (tr : List (ℤ × ℕ)) : ℕ :=
  (tr.filter (fun r => 500 ≤ r.2)).length

theorem protect_below (cb : CircuitBreaker) (now : ℤ) (status : ℕ)
    (h : cb.failures < cb.threshold) :
    protect cb now status = protectRun cb now status := by
  unfold protect
  rw [if_neg (by omega)]

/-- Below the threshold every request is served; faults increment the
counter, successes leave it unchanged, and the configuration fields are
untouched. -/
theorem runBreaker_closed (tr : List (ℤ × ℕ)) :
    ∀ cb : CircuitBreaker, cb.failures + countFaults tr < cb.threshold →
      (runBreaker cb tr).1.failures = cb.failures + countFaults tr ∧
      (runBreaker cb tr).1.threshold = cb.threshold ∧
      (runBreaker cb tr).1.timeout = cb.timeout ∧
      (runBreaker cb tr).2 = tr.map (fun r => BreakerOutcome.served r.2) := by
  induction tr with
  | nil => intro cb _; simp [runBreaker, countFaults]
  | cons r rest ih =>
    intro cb hcnt
    obtain ⟨t, s⟩ := r
    by_cases hs : 500 ≤ s
    · have hcf : countFaults ((t, s) :: rest) = countFaults rest + 1 := by
        simp [countFaults, List.filter_cons, hs]
      rw [hcf] at hcnt
      have hbelow : cb.failures < cb.threshold := by omega
      have hstep : protect cb t s =
          ({ cb with failures := cb.failures + 1, lastFailure := t },
            .served s) := by
        rw [protect_below cb t s hbelow]
        unfold protectRun
        rw [if_pos hs]
      have hrec := ih { cb with failures := cb.failures + 1, lastFailure := t }
        (by simp only []; omega)
      simp only [] at hrec
      simp only [runBreaker, hstep]
      refine ⟨?_, hrec.2.1, hrec.2.2.1, ?_⟩
      · rw [hrec.1, hcf]
        omega
      · simp [hrec.2.2.2]
    · have hcf : countFaults ((t, s) :: rest) = countFaults rest := by
        simp [countFaults, List.filter_cons, hs]
      rw [hcf] at hcnt
      have hbelow : cb.failures < cb.threshold := by omega
      have hstep : protect cb t s = (cb, .served s) := by
        rw [protect_below cb t s hbelow]
        unfold protectRun
        rw [if_neg hs]
      have hrec := ih cb (by omega)
      simp only [runBreaker, hstep]
      refine ⟨?_, hrec.2.1, hrec.2.2.1, ?_⟩
      · rw [hrec.1, hcf]
      · simp [hrec.2.2.2]

/-- The final `lastFailure` after a trace ending in a served fault is that
fault's arrival time. -/
theorem runBreaker_append_one (cb : CircuitBreaker) (tr : List (ℤ × ℕ))
    (t : ℤ) (s : ℕ) :
    runBreaker cb (tr ++ [(t, s)]) =
      ((protect (runBreaker cb tr).1 t s).1,
        (runBreaker cb tr).2 ++ [(protect (runBreaker cb tr).1 t s).2]) := by
  induction tr generalizing cb with
  | nil => simp [runBreaker]
  | cons r rest ih =>
    obtain ⟨t0, s0⟩ := r
    rw [List.cons_append]
    simp only [runBreaker]
    rw [ih]
    simp

theorem protect_open_rejected (cb : CircuitBreaker) (now : ℤ) (s : ℕ)
    (hopen : cb.threshold ≤ cb.failures)
    (hrecent : now - cb.lastFailure < cb.timeout) :
    protect cb now s = (cb, .rejected) := by
  unfold protect
  rw [if_pos hopen, if_pos hrecent]

theorem protect_open_reset (cb : CircuitBreaker) (now : ℤ) (s : ℕ)
    (hopen : cb.threshold ≤ cb.failures)
    (helapsed : ¬(now - cb.lastFailure < cb.timeout)) :
    protect cb now s = protectRun { cb with failures := 0 } now s := by
  unfold protect
  rw [if_pos hopen, if_neg helapsed]

theorem countFaults_append (a b : List (ℤ × ℕ)) :
    countFaults (a ++ b) = countFaults a + countFaults b := by
  simp [countFaults, List.filter_append]

/-- From a fresh breaker, a trace holding `threshold - 1` faults followed by
one more fault trips the breaker: every request is served, the counter ends
at `threshold`, and `lastFailure` is the final fault's time. -/
theorem runBreaker_trips (cb : CircuitBreaker) (tr : List (ℤ × ℕ))
    (t : ℤ) (s : ℕ)
    (h0 : cb.failures = 0) (hs : 500 ≤ s) (hth : 0 < cb.threshold)
    (hcnt0 : countFaults tr = cb.threshold - 1) :
    (runBreaker cb (tr ++ [(t, s)])).2 =
      tr.map (fun r => BreakerOutcome.served r.2) ++ [.served s] ∧
    (runBreaker cb (tr ++ [(t, s)])).1.failures = cb.threshold ∧
    (runBreaker cb (tr ++ [(t, s)])).1.threshold = cb.threshold ∧
    (runBreaker cb (tr ++ [(t, s)])).1.timeout = cb.timeout ∧
    (runBreaker cb (tr ++ [(t, s)])).1.lastFailure = t := by
  have hclosed := runBreaker_closed tr cb (by omega)
  have hbelow : (runBreaker cb tr).1.failures <
      (runBreaker cb tr).1.threshold := by
    rw [hclosed.1, hclosed.2.1]
    omega
  have hstep : protect (runBreaker cb tr).1 t s =
      ({ (runBreaker cb tr).1 with
          failures := (runBreaker cb tr).1.failures + 1,
          lastFailure := t }, .served s) := by
    rw [protect_below _ _ _ hbelow]
    unfold protectRun
    rw [if_pos hs]
  rw [runBreaker_append_one, hstep]
  refine ⟨?_, ?_, ?_, ?_, rfl⟩
  · rw [hclosed.2.2.2]
  · simp only []
    rw [hclosed.1]
    omega
  · exact hclosed.2.1
  · exact hclosed.2.2.1

/-- C4: from a fresh breaker, `threshold` consecutive server-fault responses
all pass through to the handler and leave the counter at `threshold`; while
the timeout since the last failure has not elapsed, the next request is
rejected with the 503 service-unavailable signal without reaching handler
logic and without changing breaker state; once the timeout has elapsed, the
following request passes through with the failure counter reset to 0
beforehand. -/
theorem breaker_opens_then_resets (cb : CircuitBreaker) (tr : List (ℤ × ℕ))
    (now now2 : ℤ) (s s2 : ℕ)
    (h0 : cb.failures = 0) (hth : 0 < cb.threshold)
    (hlen : tr.length = cb.threshold) (hf : ∀ r ∈ tr, 500 ≤ r.2) :
    (runBreaker cb tr).2 = tr.map (fun r => BreakerOutcome.served r.2) ∧
    (runBreaker cb tr).1.failures = cb.threshold ∧
    (now - (runBreaker cb tr).1.lastFailure < cb.timeout →
      protect (runBreaker cb tr).1 now s = ((runBreaker cb tr).1, .rejected)) ∧
    (cb.timeout ≤ now2 - (runBreaker cb tr).1.lastFailure →
      (protect (runBreaker cb tr).1 now2 s2).2 = .served s2 ∧
      (protect (runBreaker cb tr).1 now2 s2).1.failures =
        (if 500 ≤ s2 then 1 else 0)) := by
  have hne : tr ≠ [] := by
    intro h
    rw [h] at hlen
    simp at hlen
    omega
  have hdecomp : tr.dropLast ++ [tr.getLast hne] = tr :=
    List.dropLast_append_getLast hne
  have hsl : 500 ≤ (tr.getLast hne).2 := hf _ (List.getLast_mem hne)
  have hcf0 : countFaults tr.dropLast = cb.threshold - 1 := by
    have hall : countFaults tr.dropLast = tr.dropLast.length := by
      unfold countFaults
      congr 1
      apply List.filter_eq_self.mpr
      intro r hr
      exact decide_eq_true (hf r ((List.dropLast_sublist tr).subset hr))
    rw [hall, List.length_dropLast, hlen]
  have htrips := runBreaker_trips cb tr.dropLast (tr.getLast hne).1
    (tr.getLast hne).2 h0 hsl hth hcf0
  rw [hdecomp] at htrips
  obtain ⟨houts, hF, hThr, hTo, hLf⟩ := htrips
  refine ⟨?_, hF, ?_, ?_⟩
  · rw [houts]
    conv_rhs => rw [← hdecomp]
    simp
  · intro hrecent
    exact protect_open_rejected _ now s (by omega)
      (by rw [hTo]; exact hrecent)
  · intro helapsed
    rw [protect_open_reset _ now2 s2 (by omega)
      (by rw [hTo]; omega)]
    unfold protectRun
    by_cases hs2 : 500 ≤ s2
    · rw [if_pos hs2]
      simp [hs2]
    · rw [if_neg hs2]
      simp [hs2]

theorem breaker_opens_then_resets_witness :
    (protect (runBreaker ⟨0, 0, 2, 10⟩ [(1, 500), (2, 503)]).1 5 200).2 =
      BreakerOutcome.rejected := by
  have h := breaker_opens_then_resets ⟨0, 0, 2, 10⟩
    [(1, 500), (2, 503)] 5 20 200 200 rfl (by norm_num) (by norm_num)
    (by decide)
  rw [h.2.2.1 (by decide)]

/-- C10: below the threshold a fault increments the failure counter and a
success leaves it unchanged (nothing resets it); consequently, from a fresh
breaker, any request trace whose total number of server-fault responses is
exactly `threshold` and whose last request is one of those faults is fully
served — however many successes are interleaved — and leaves the counter at
`threshold`, so any following request within the timeout is rejected. -/
theorem breaker_opens_on_interleaved_faults (cb : CircuitBreaker)
    (tr : List (ℤ × ℕ)) (t : ℤ) (s : ℕ)
    (h0 : cb.failures = 0) (hs : 500 ≤ s)
    (hcnt : countFaults (tr ++ [(t, s)]) = cb.threshold) :
    (∀ (cb2 : CircuitBreaker) (now : ℤ) (st : ℕ),
        cb2.failures < cb2.threshold →
        (protect cb2 now st).1.failures =
          (if 500 ≤ st then cb2.failures + 1 else cb2.failures) ∧
        (protect cb2 now st).2 = .served st) ∧
    (runBreaker cb (tr ++ [(t, s)])).2 =
      (tr ++ [(t, s)]).map (fun r => BreakerOutcome.served r.2) ∧
    (runBreaker cb (tr ++ [(t, s)])).1.failures = cb.threshold ∧
    (∀ (now : ℤ) (st : ℕ),
      now - (runBreaker cb (tr ++ [(t, s)])).1.lastFailure < cb.timeout →
      protect (runBreaker cb (tr ++ [(t, s)])).1 now st =
        ((runBreaker cb (tr ++ [(t, s)])).1, .rejected)) := by
  have hone : countFaults [(t, s)] = 1 := by
    simp [countFaults, hs]
  have hcnt0 : countFaults tr = cb.threshold - 1 := by
    rw [countFaults_append, hone] at hcnt
    omega
  have hth : 0 < cb.threshold := by
    rw [countFaults_append, hone] at hcnt
    omega
  have htrips := runBreaker_trips cb tr t s h0 hs hth hcnt0
  obtain ⟨houts, hF, hThr, hTo, _⟩ := htrips
  refine ⟨?_, ?_, hF, ?_⟩
  · intro cb2 now st hb
    rw [protect_below _ _ _ hb]
    unfold protectRun
    by_cases hst : 500 ≤ st
    · rw [if_pos hst]
      simp [hst]
    · rw [if_neg hst]
      simp [hst]
  · rw [houts]
    simp
  · intro now st hrecent
    exact protect_open_rejected _ now st (by omega)
      (by rw [hTo]; exact hrecent)

theorem breaker_opens_on_interleaved_faults_witness :
    (runBreaker (⟨0, 0, 2, 10⟩ : CircuitBreaker)
      ([(1, 500), (2, 200), (3, 404)] ++ [(4, 502)])).1.failures = 2 :=
  (breaker_opens_on_interleaved_faults ⟨0, 0, 2, 10⟩
    [(1, 500), (2, 200), (3, 404)] 4 502 rfl (by norm_num) (by decide)).2.2.1

end Volatria

namespace Volatria

/-- `api.CacheEntry`: payload plus insertion time.  Insertion times are
`time.Now()` stamps, so they are positive; the zero value stands for Go's
zero `time.Time`. -/
structure CacheEntry (α : Type) where
  data : α
  timestamp : ℕ
deriving DecidableEq, Repr

/-- `api.Cache`: entry map (modelled as a key-unique association list),
TTL and maximum size. -/
structure Cache (α : Type) where
  entries : List (String × CacheEntry α)
  ttl : ℕ
  maxSize : ℕ

/-- The eviction scan of `Cache.Set`: find the key of the entry with the
oldest insertion time, starting from the zero time
(`oldestTime.IsZero() || entry.Timestamp.Before(oldestTime)`). -/
def findOldest {α : Type} (entries : List (String × CacheEntry α)) :
    String × ℕ :=
  entries.foldl
    (fun acc kv =>
      if acc.2 = 0 ∨ kv.2.timestamp < acc.2 then (kv.1, kv.2.timestamp)
      else acc)
    ("", 0)

/-- `Cache.Set`: when the cache is at or over `maxSize`, delete the entry
found by the eviction scan; then bind `key` to the new entry stamped `now`
(map assignment: any previous binding of `key` is replaced). -/
def cacheSet {α : Type} (c : Cache α) (key : String) (d : α) (now : ℕ) :
    Cache α :=
  let entries :=
    if c.maxSize ≤ c.entries.length then
      c.entries.filter (fun kv => kv.1 != (findOldest c.entries).1)
    else c.entries
  { c with entries :=
      entries.filter (fun kv => kv.1 != key) ++ [(key, ⟨d, now⟩)] }

/-- The eviction scan returns a present entry of minimal insertion time,
provided all insertion times are positive. -/
theorem findOldest_fold_min {α : Type} (entries : List (String × CacheEntry α))
    (hpos : ∀ kv ∈ entries, 0 < kv.2.timestamp) :
    ∀ acc : String × ℕ, 0 < acc.2 →
      ((entries.foldl
          (fun acc kv =>
            if acc.2 = 0 ∨ kv.2.timestamp < acc.2 then (kv.1, kv.2.timestamp)
            else acc)
          acc = acc ∨
        ∃ kv ∈ entries,
          entries.foldl
            (fun acc kv =>
              if acc.2 = 0 ∨ kv.2.timestamp < acc.2 then (kv.1, kv.2.timestamp)
              else acc)
            acc = (kv.1, kv.2.timestamp)) ∧
       (entries.foldl
          (fun acc kv =>
            if acc.2 = 0 ∨ kv.2.timestamp < acc.2 then (kv.1, kv.2.timestamp)
            else acc)
          acc).2 ≤ acc.2 ∧
       ∀ kv ∈ entries,
         (entries.foldl
            (fun acc kv =>
              if acc.2 = 0 ∨ kv.2.timestamp < acc.2 then (kv.1, kv.2.timestamp)
              else acc)
            acc).2 ≤ kv.2.timestamp) := by
  induction entries with
  | nil => intro acc hacc; exact ⟨Or.inl rfl, le_refl _, by simp⟩
  | cons x xs ih =>
    intro acc hacc
    have hxpos : 0 < x.2.timestamp := hpos x (List.mem_cons_self x xs)
    have hposxs : ∀ kv ∈ xs, 0 < kv.2.timestamp :=
      fun kv hkv => hpos kv (List.mem_cons_of_mem x hkv)
    simp only [List.foldl_cons]
    by_cases hc : acc.2 = 0 ∨ x.2.timestamp < acc.2
    · rw [if_pos hc]
      obtain ⟨hm, hle, hall⟩ := ih hposxs (x.1, x.2.timestamp) hxpos
      refine ⟨?_, ?_, ?_⟩
      · rcases hm with hm | ⟨kv, hkv, hm⟩
        · exact Or.inr ⟨x, List.mem_cons_self x xs, hm⟩
        · exact Or.inr ⟨kv, List.mem_cons_of_mem x hkv, hm⟩
      · rcases hc with hc | hc
        · omega
        · exact le_trans hle (le_of_lt hc)
      · intro kv hkv
        rcases List.mem_cons.mp hkv with hkv | hkv
        · rw [hkv]
          exact hle
        · exact hall kv hkv
    · rw [if_neg hc]
      push_neg at hc
      have hxge : acc.2 ≤ x.2.timestamp := hc.2
      obtain ⟨hm, hle, hall⟩ := ih hposxs acc hacc
      refine ⟨?_, hle, ?_⟩
      · rcases hm with hm | ⟨kv, hkv, hm⟩
        · exact Or.inl hm
        · exact Or.inr ⟨kv, List.mem_cons_of_mem x hkv, hm⟩
      · intro kv hkv
        rcases List.mem_cons.mp hkv with hkv | hkv
        · rw [hkv]
          exact le_trans hle hxge
        · exact hall kv hkv

/-- On a nonempty cache with positive insertion times, the eviction scan
picks an actual entry of minimal insertion time. -/
theorem findOldest_spec {α : Type} (entries : List (String × CacheEntry α))
    (hne : entries ≠ [])
    (hpos : ∀ kv ∈ entries, 0 < kv.2.timestamp) :
    ∃ kv ∈ entries, findOldest entries = (kv.1, kv.2.timestamp) ∧
      ∀ kv2 ∈ entries, kv.2.timestamp ≤ kv2.2.timestamp := by
  obtain ⟨x, xs, rfl⟩ := List.exists_cons_of_ne_nil hne
  have hxpos : 0 < x.2.timestamp := hpos x (List.mem_cons_self x xs)
  have hposxs : ∀ kv ∈ xs, 0 < kv.2.timestamp :=
    fun kv hkv => hpos kv (List.mem_cons_of_mem x hkv)
  have hstep : findOldest (x :: xs) =
      xs.foldl
        (fun acc kv =>
          if acc.2 = 0 ∨ kv.2.timestamp < acc.2 then (kv.1, kv.2.timestamp)
          else acc)
        (x.1, x.2.timestamp) := by
    unfold findOldest
    simp
  obtain ⟨hm, hle, hall⟩ :=
    findOldest_fold_min xs hposxs (x.1, x.2.timestamp) hxpos
  rw [← hstep] at hm hle hall
  rcases hm with hm | ⟨kv, hkv, hm⟩
  · refine ⟨x, List.mem_cons_self x xs, hm, ?_⟩
    intro kv2 hkv2
    rcases List.mem_cons.mp hkv2 with hkv2 | hkv2
    · rw [hkv2]
    · have := hall kv2 hkv2
      rw [hm] at this
      exact this
  · refine ⟨kv, List.mem_cons_of_mem x hkv, hm, ?_⟩
    intro kv2 hkv2
    rcases List.mem_cons.mp hkv2 with hkv2 | hkv2
    · rw [hkv2]
      have : (findOldest (x :: xs)).2 ≤ x.2.timestamp := hle
      rw [hm] at this
      exact this
    · have := hall kv2 hkv2
      rw [hm] at this
      exact this

/-- Deleting one present key from a key-unique association list removes
exactly that entry. -/
theorem filter_ne_key_of_nodup {α : Type} (l : List (String × CacheEntry α))
    (old : String × CacheEntry α)
    (hk : (l.map Prod.fst).Nodup) (hmem : old ∈ l) :
    (l.filter (fun kv => kv.1 != old.1)).length + 1 = l.length ∧
      ∀ kv ∈ l, kv ≠ old → kv ∈ l.filter (fun kv => kv.1 != old.1) := by
  induction l with
  | nil => exact absurd hmem (List.not_mem_nil old)
  | cons x xs ih =>
    rw [List.map_cons, List.nodup_cons] at hk
    by_cases hxo : x = old
    · have hxs : xs.filter (fun kv => kv.1 != old.1) = xs := by
        apply List.filter_eq_self.mpr
        intro kv hkv
        have : kv.1 ≠ old.1 := by
          intro he
          apply hk.1
          rw [hxo, ← he]
          exact List.mem_map_of_mem Prod.fst hkv
        simpa using this
      have hxfix : (x :: xs).filter (fun kv => kv.1 != old.1) = xs := by
        rw [List.filter_cons]
        rw [if_neg (by simp [hxo])]
        exact hxs
      refine ⟨by rw [hxfix]; simp, ?_⟩
      intro kv hkv hne
      rw [hxfix]
      rcases List.mem_cons.mp hkv with hkv | hkv
      · exact absurd (hkv.trans hxo) hne
      · exact hkv
    · have hold : old ∈ xs := by
        rcases List.mem_cons.mp hmem with h | h
        · exact absurd h.symm hxo
        · exact h
      have hx1 : x.1 ≠ old.1 := by
        intro he
        exact hk.1 (he ▸ List.mem_map_of_mem Prod.fst hold)
      have hcons : (x :: xs).filter (fun kv => kv.1 != old.1) =
          x :: xs.filter (fun kv => kv.1 != old.1) := by
        rw [List.filter_cons, if_pos (by simpa using hx1)]
      obtain ⟨hlen, hrest⟩ := ih hk.2 hold
      refine ⟨by rw [hcons]; simp [← hlen], ?_⟩
      intro kv hkv hne
      rw [hcons]
      rcases List.mem_cons.mp hkv with hkv | hkv
      · exact hkv ▸ List.mem_cons_self x _
      · exact List.mem_cons_of_mem x (hrest kv hkv hne)

/-- C5: on a cache holding exactly `maxSize` entries with distinct keys,
positive insertion times, a single oldest entry (any minimal entry is
strictly older than every other), and a fresh key, `Set` evicts exactly the
entry with the oldest insertion time — never a newer one — inserts the new
entry, and keeps every other entry. -/
theorem cache_set_evicts_oldest {α : Type} (c : Cache α) (key : String)
    (d : α) (now : ℕ)
    (hfull : c.entries.length = c.maxSize)
    (hsize : 0 < c.maxSize)
    (hkeys : (c.entries.map Prod.fst).Nodup)
    (hpos : ∀ kv ∈ c.entries, 0 < kv.2.timestamp)
    (huniq : ∀ a ∈ c.entries, ∀ b ∈ c.entries,
      (∀ kv ∈ c.entries, a.2.timestamp ≤ kv.2.timestamp) → a ≠ b →
      a.2.timestamp < b.2.timestamp)
    (hfresh : ∀ kv ∈ c.entries, kv.1 ≠ key) :
    ∃ old ∈ c.entries,
      (∀ kv ∈ c.entries, old.2.timestamp ≤ kv.2.timestamp) ∧
      (cacheSet c key d now).entries =
        c.entries.filter (fun kv => kv.1 != old.1) ++ [(key, ⟨d, now⟩)] ∧
      (cacheSet c key d now).entries.length = c.maxSize ∧
      (key, (⟨d, now⟩ : CacheEntry α)) ∈ (cacheSet c key d now).entries ∧
      ∀ kv ∈ c.entries, kv ≠ old →
        old.2.timestamp < kv.2.timestamp ∧
          kv ∈ (cacheSet c key d now).entries := by
  have hne : c.entries ≠ [] := by
    intro h
    rw [h] at hfull
    simp at hfull
    omega
  obtain ⟨old, hold, hfo, hmin⟩ := findOldest_spec c.entries hne hpos
  obtain ⟨hlen, hkeep⟩ := filter_ne_key_of_nodup c.entries old hkeys hold
  have hresult : (cacheSet c key d now).entries =
      c.entries.filter (fun kv => kv.1 != old.1) ++ [(key, ⟨d, now⟩)] := by
    unfold cacheSet
    rw [if_pos (le_of_eq hfull.symm), hfo]
    have hid : (c.entries.filter (fun kv => kv.1 != old.1)).filter
        (fun kv => kv.1 != key) =
        c.entries.filter (fun kv => kv.1 != old.1) := by
      apply List.filter_eq_self.mpr
      intro kv hkv
      have hkv2 := (List.mem_filter.mp hkv).1
      simpa using hfresh kv hkv2
    simp only []
    rw [hid]
  refine ⟨old, hold, hmin, hresult, ?_, ?_, ?_⟩
  · rw [hresult]
    simp only [List.length_append, List.length_singleton]
    omega
  · rw [hresult]
    exact List.mem_append_right _ (List.mem_singleton.mpr rfl)
  · intro kv hkv hne2
    refine ⟨huniq old hold kv hkv hmin (fun he => hne2 he.symm), ?_⟩
    rw [hresult]
    exact List.mem_append_left _ (hkeep kv hkv hne2)

/-- Concrete cache at max size used to instantiate the eviction theorem. -/
def cacheW : Cache ℕ :=
  ⟨[("A", ⟨10, 1⟩), ("B", ⟨20, 2⟩)], 5, 2⟩

theorem cache_set_evicts_oldest_witness :
    ∃ old ∈ cacheW.entries,
      (∀ kv ∈ cacheW.entries, old.2.timestamp ≤ kv.2.timestamp) ∧
      (cacheSet cacheW "C" 30 3).entries =
        cacheW.entries.filter (fun kv => kv.1 != old.1) ++ [("C", ⟨30, 3⟩)] ∧
      (cacheSet cacheW "C" 30 3).entries.length = 2 ∧
      ("C", (⟨30, 3⟩ : CacheEntry ℕ)) ∈ (cacheSet cacheW "C" 30 3).entries ∧
      ∀ kv ∈ cacheW.entries, kv ≠ old →
        old.2.timestamp < kv.2.timestamp ∧
          kv ∈ (cacheSet cacheW "C" 30 3).entries :=
  cache_set_evicts_oldest cacheW "C" 30 3 (by decide) (by decide) (by decide)
    (by decide) (by decide) (by decide)


end Volatria

namespace Volatria

/-- Modelled from the spec: the token bucket behind
`golang.org/x/time/rate.Limiter` (the library itself is not part of this
repository).  Spec §4.3: per-key bucket `{tokens, lastRefill}`; permits
accumulate at the refill rate up to the capacity; `Allow` consumes one
token when available.  Times are in seconds as `ℚ`. -/
structure Bucket where
  tokens : ℚ
  lastRefill : ℚ
deriving DecidableEq, Repr

/-- Modelled from the spec: one non-blocking `Allow` call on a bucket with
the given capacity and per-second refill rate. -/
def bucketAllow (capacity rate : ℚ) (b : Bucket) (now : ℚ) :
    Bucket × Bool :=
  let tokens := min capacity (b.tokens + (now - b.lastRefill) * rate)
  if 1 ≤ tokens then (⟨tokens - 1, now⟩, true)
  else (⟨tokens, now⟩, false)

/-- `api.RateLimiter`: lazily filled per-key limiter map plus the configured
requests-per-second, used as both burst capacity and refill rate
(`rate.NewLimiter(rate.Limit(rl.rps), rl.rps)`). -/
structure RateLimiter where
  limiters : List (String × Bucket)
  rps : ℕ

/-- `api.NewRateLimiter`. -/
def newRateLimiter (rps : ℕ) : RateLimiter := ⟨[], rps⟩

/-- `RateLimiter.getLimiter`: return the key's bucket, creating a full one
on first use and retaining it. -/
def getLimiter (rl : RateLimiter) (key : String) (now : ℚ) :
    RateLimiter × Bucket :=
  match rl.limiters.lookup key with
  | some b => (rl, b)
  | none =>
    let b : Bucket := ⟨(rl.rps : ℚ), now⟩
    ({ rl with limiters := rl.limiters ++ [(key, b)] }, b)

/-- Replace the binding of `key` in the limiter map. -/
def setBucket (l : List (String × Bucket)) (key : String) (b : Bucket) :
    List (String × Bucket) :=
  l.map (fun kv => if kv.1 == key then (key, b) else kv)

/-- `RateLimiter.Limit()` applied to one request from `key` at `now`:
fetch or create the key's bucket and ask it for a token; `false` is the
429 rejection. -/
def limitRequest (rl : RateLimiter) (key : String) (now : ℚ) :
    RateLimiter × Bool :=
  let rlb := getLimiter rl key now
  let res := bucketAllow (rlb.1.rps : ℚ) (rlb.1.rps : ℚ) rlb.2 now
  ({ rlb.1 with limiters := setBucket rlb.1.limiters key res.1 }, res.2)

/-- Process a list of requests `(key, arrival time)` through the limiter,
pairing each request's key with its outcome. -/
def runLimiter (rl : RateLimiter) : List (String × ℚ) →
    RateLimiter × List (String × Bool)
  | [] => (rl, [])
  | (k, t) :: rest =>
    let step := limitRequest rl k t
    let tail := runLimiter step.1 rest
    (tail.1, (k, step.2) :: tail.2)

theorem beq_false_of_ne {a b : String} (h : a ≠ b) : (a == b) = false := by
  rw [beq_eq_false_iff_ne]
  exact h

theorem lookup_setBucket_eq (l : List (String × Bucket)) (k : String)
    (b : Bucket) (b0 : Bucket) (h : l.lookup k = some b0) :
    (setBucket l k b).lookup k = some b := by
  induction l with
  | nil => simp [List.lookup] at h
  | cons x xs ih =>
    by_cases hx : x.1 = k
    · simp only [setBucket, List.map_cons]
      rw [if_pos (by simp [hx])]
      simp [List.lookup]
    · have hbeq : (k == x.1) = false := beq_false_of_ne (fun he => hx he.symm)
      simp only [setBucket, List.map_cons]
      rw [if_neg (by simp [hx])]
      simp only [List.lookup, hbeq] at h ⊢
      exact ih h

theorem lookup_setBucket_ne (l : List (String × Bucket)) (k k0 : String)
    (b : Bucket) (h : k ≠ k0) :
    (setBucket l k0 b).lookup k = l.lookup k := by
  induction l with
  | nil => simp [setBucket]
  | cons x xs ih =>
    simp only [setBucket, List.map_cons]
    by_cases hx : x.1 = k0
    · rw [if_pos (by simp [hx])]
      have h1 : (k == k0) = false := beq_false_of_ne h
      have h2 : (k == x.1) = false := beq_false_of_ne (fun he => h (he.trans hx))
      simp only [List.lookup, h1, h2]
      exact ih
    · rw [if_neg (by simp [hx])]
      by_cases hk : k = x.1
      · have hb : (k == x.1) = true := by simp [hk]
        simp [List.lookup, hb]
      · have hb : (k == x.1) = false := beq_false_of_ne hk
        simp only [List.lookup, hb]
        exact ih

theorem lookup_append_of_none (l : List (String × Bucket)) (k : String)
    (b : Bucket) (h : l.lookup k = none) :
    (l ++ [(k, b)]).lookup k = some b := by
  induction l with
  | nil => simp [List.lookup]
  | cons x xs ih =>
    by_cases hk : k = x.1
    · have hb : (k == x.1) = true := by simp [hk]
      simp only [List.lookup, hb] at h
      exact absurd h (by simp)
    · have hb : (k == x.1) = false := beq_false_of_ne hk
      simp only [List.lookup, hb] at h
      simp only [List.cons_append, List.lookup, hb]
      exact ih h

theorem lookup_append_ne (l : List (String × Bucket)) (k k0 : String)
    (b : Bucket) (h : k ≠ k0) :
    (l ++ [(k0, b)]).lookup k = l.lookup k := by
  induction l with
  | nil =>
    have hb : (k == k0) = false := beq_false_of_ne h
    simp [List.lookup, hb]
  | cons x xs ih =>
    by_cases hk : k = x.1
    · have hb : (k == x.1) = true := by simp [hk]
      simp [List.cons_append, List.lookup, hb]
    · have hb : (k == x.1) = false := beq_false_of_ne hk
      simp only [List.cons_append, List.lookup, hb]
      exact ih

theorem getLimiter_rps (rl : RateLimiter) (k : String) (t : ℚ) :
    (getLimiter rl k t).1.rps = rl.rps := by
  unfold getLimiter
  cases h : rl.limiters.lookup k <;> simp

/-- A same-instant burst on a key whose bucket holds `tok` tokens sees no
refill, and once the tokens run out a request is rejected. -/
theorem runLimiter_drain (k : String) (t0 : ℚ) (rps : ℕ) :
    ∀ (j : ℕ) (rl : RateLimiter) (tok : ℚ),
      rl.rps = rps →
      rl.limiters.lookup k = some ⟨tok, t0⟩ →
      0 ≤ tok → tok ≤ (rps : ℚ) → tok < (j : ℚ) →
      ∃ o ∈ (runLimiter rl (List.replicate j (k, t0))).2, o = (k, false) := by
  intro j
  induction j with
  | zero =>
    intro rl tok _ _ h0 _ hj
    exfalso
    push_cast at hj
    linarith
  | succ m ih =>
    intro rl tok hrps hlk h0 hle hj
    have hget : getLimiter rl k t0 = (rl, ⟨tok, t0⟩) := by
      unfold getLimiter
      rw [hlk]
    have hmin : min ((rl.rps : ℚ)) (tok + (t0 - t0) * (rl.rps : ℚ)) = tok := by
      have harith : tok + (t0 - t0) * ((rl.rps : ℚ)) = tok := by ring
      rw [harith, min_eq_right (by rw [hrps]; exact hle)]
    rw [List.replicate_succ]
    by_cases h1 : 1 ≤ tok
    · have hstep : limitRequest rl k t0 =
          ({ rl with limiters := setBucket rl.limiters k ⟨tok - 1, t0⟩ }, true) := by
        simp only [limitRequest, bucketAllow, hget, hmin]
        rw [if_pos h1]
      simp only [runLimiter, hstep]
      have hlk2 : (setBucket rl.limiters k ⟨tok - 1, t0⟩).lookup k =
          some ⟨tok - 1, t0⟩ :=
        lookup_setBucket_eq rl.limiters k ⟨tok - 1, t0⟩ ⟨tok, t0⟩ hlk
      obtain ⟨o, ho, hoeq⟩ :=
        ih { rl with limiters := setBucket rl.limiters k ⟨tok - 1, t0⟩ }
          (tok - 1) hrps hlk2 (by linarith) (by linarith)
          (by push_cast at hj ⊢; linarith)
      exact ⟨o, List.mem_cons_of_mem _ ho, hoeq⟩
    · have hstep : limitRequest rl k t0 =
          ({ rl with limiters := setBucket rl.limiters k ⟨tok, t0⟩ }, false) := by
        simp only [limitRequest, bucketAllow, hget, hmin]
        rw [if_neg h1]
      simp only [runLimiter, hstep]
      exact ⟨(k, false), List.mem_cons_self _ _, rfl⟩

/-- A fresh key's bucket starts full at `rps` tokens; strictly more than
`rps` same-instant requests for it cannot all be allowed. -/
theorem runLimiter_exhausts_fresh (k : String) (t0 : ℚ) (rps : ℕ)
    (j : ℕ) (rl : RateLimiter)
    (hrps : rl.rps = rps) (hlk : rl.limiters.lookup k = none)
    (h1 : 0 < rps) (hj : (rps : ℚ) < (j : ℚ)) :
    ∃ o ∈ (runLimiter rl (List.replicate j (k, t0))).2, o = (k, false) := by
  cases j with
  | zero =>
    exfalso
    push_cast at hj
    have : (0 : ℚ) ≤ (rps : ℚ) := by positivity
    linarith
  | succ m =>
    have hget : getLimiter rl k t0 =
        ({ rl with limiters := rl.limiters ++ [(k, ⟨(rl.rps : ℚ), t0⟩)] },
          ⟨(rl.rps : ℚ), t0⟩) := by
      unfold getLimiter
      rw [hlk]
    have hone : (1 : ℚ) ≤ (rps : ℚ) := by exact_mod_cast h1
    have hmin : min ((rl.rps : ℚ))
        ((rl.rps : ℚ) + (t0 - t0) * (rl.rps : ℚ)) = (rl.rps : ℚ) := by
      have harith : (rl.rps : ℚ) + (t0 - t0) * ((rl.rps : ℚ)) = (rl.rps : ℚ) := by
        ring
      rw [harith, min_self]
    have hstep : limitRequest rl k t0 =
        (⟨setBucket (rl.limiters ++ [(k, ⟨(rl.rps : ℚ), t0⟩)]) k
          ⟨(rl.rps : ℚ) - 1, t0⟩, rl.rps⟩, true) := by
      simp only [limitRequest, bucketAllow, hget, hmin]
      rw [if_pos (by rw [hrps]; exact hone)]
    rw [List.replicate_succ]
    simp only [runLimiter, hstep]
    have hlk2 : (setBucket (rl.limiters ++ [(k, ⟨(rl.rps : ℚ), t0⟩)]) k
        ⟨(rl.rps : ℚ) - 1, t0⟩).lookup k = some ⟨(rl.rps : ℚ) - 1, t0⟩ :=
      lookup_setBucket_eq _ k _ ⟨(rl.rps : ℚ), t0⟩
        (lookup_append_of_none rl.limiters k _ hlk)
    obtain ⟨o, ho, hoeq⟩ := runLimiter_drain k t0 rps m
      ⟨setBucket (rl.limiters ++ [(k, ⟨(rl.rps : ℚ), t0⟩)]) k
        ⟨(rl.rps : ℚ) - 1, t0⟩, rl.rps⟩
      ((rl.rps : ℚ) - 1) hrps hlk2
      (by rw [hrps]; linarith) (by rw [hrps]; linarith)
      (by rw [hrps]; push_cast at hj ⊢; linarith)
    exact ⟨o, List.mem_cons_of_mem _ ho, hoeq⟩

/-- Requests for one key read and write only that key's bucket. -/
theorem limitRequest_other (rl : RateLimiter) (k0 : String) (t : ℚ)
    (k : String) (h : k ≠ k0) :
    (limitRequest rl k0 t).1.limiters.lookup k = rl.limiters.lookup k ∧
    (limitRequest rl k0 t).1.rps = rl.rps := by
  constructor
  · show (setBucket (getLimiter rl k0 t).1.limiters k0 _).lookup k = _
    rw [lookup_setBucket_ne _ k k0 _ h]
    unfold getLimiter
    cases hl : rl.limiters.lookup k0 with
    | some b => rfl
    | none =>
      simp only []
      exact lookup_append_ne rl.limiters k k0 _ h
  · show (getLimiter rl k0 t).1.rps = rl.rps
    exact getLimiter_rps rl k0 t

/-- Two limiters agreeing on a key's bucket and on the configuration treat a
request for that key identically. -/
theorem limitRequest_congr (rl rl2 : RateLimiter) (k : String) (t : ℚ)
    (hrps : rl.rps = rl2.rps)
    (hlk : rl.limiters.lookup k = rl2.limiters.lookup k) :
    (limitRequest rl k t).2 = (limitRequest rl2 k t).2 ∧
    (limitRequest rl k t).1.limiters.lookup k =
      (limitRequest rl2 k t).1.limiters.lookup k := by
  cases hl : rl.limiters.lookup k with
  | some b =>
    have hl2 : rl2.limiters.lookup k = some b := by rw [← hlk]; exact hl
    have hget : getLimiter rl k t = (rl, b) := by
      unfold getLimiter
      rw [hl]
    have hget2 : getLimiter rl2 k t = (rl2, b) := by
      unfold getLimiter
      rw [hl2]
    constructor
    · show (bucketAllow ((getLimiter rl k t).1.rps : ℚ) _ _ t).2 =
        (bucketAllow ((getLimiter rl2 k t).1.rps : ℚ) _ _ t).2
      rw [hget, hget2]
      simp only [hrps]
    · show (setBucket (getLimiter rl k t).1.limiters k _).lookup k =
        (setBucket (getLimiter rl2 k t).1.limiters k _).lookup k
      rw [hget, hget2]
      simp only [hrps]
      rw [lookup_setBucket_eq rl.limiters k _ b hl,
        lookup_setBucket_eq rl2.limiters k _ b hl2]
  | none =>
    have hl2 : rl2.limiters.lookup k = none := by rw [← hlk]; exact hl
    have hget : getLimiter rl k t =
        ({ rl with limiters := rl.limiters ++ [(k, ⟨(rl.rps : ℚ), t⟩)] },
          ⟨(rl.rps : ℚ), t⟩) := by
      unfold getLimiter
      rw [hl]
    have hget2 : getLimiter rl2 k t =
        ({ rl2 with limiters := rl2.limiters ++ [(k, ⟨(rl2.rps : ℚ), t⟩)] },
          ⟨(rl2.rps : ℚ), t⟩) := by
      unfold getLimiter
      rw [hl2]
    constructor
    · show (bucketAllow ((getLimiter rl k t).1.rps : ℚ) _ _ t).2 =
        (bucketAllow ((getLimiter rl2 k t).1.rps : ℚ) _ _ t).2
      rw [hget, hget2]
      simp only [hrps]
    · show (setBucket (getLimiter rl k t).1.limiters k _).lookup k =
        (setBucket (getLimiter rl2 k t).1.limiters k _).lookup k
      rw [hget, hget2]
      simp only [hrps]
      rw [lookup_setBucket_eq _ k _ ⟨(rl2.rps : ℚ), t⟩
          (lookup_append_of_none rl.limiters k _ hl),
        lookup_setBucket_eq _ k _ ⟨(rl2.rps : ℚ), t⟩
          (lookup_append_of_none rl2.limiters k _ hl2)]

/-- The outcomes a trace produces for one key are exactly the outcomes of
running that key's requests alone from any limiter agreeing on that key. -/
theorem runLimiter_filter_key (k : String) :
    ∀ (tr : List (String × ℚ)) (rl rl2 : RateLimiter),
      rl.rps = rl2.rps →
      rl.limiters.lookup k = rl2.limiters.lookup k →
      (runLimiter rl tr).2.filter (fun o => o.1 == k) =
        (runLimiter rl2 (tr.filter (fun r => r.1 == k))).2 := by
  intro tr
  induction tr with
  | nil => intro rl rl2 _ _; simp [runLimiter]
  | cons r rest ih =>
    intro rl rl2 hrps hlk
    obtain ⟨k0, t⟩ := r
    by_cases hk : k0 = k
    · subst hk
      obtain ⟨hout, hlk2⟩ := limitRequest_congr rl rl2 k0 t hrps hlk
      have hrps2 : (limitRequest rl k0 t).1.rps = (limitRequest rl2 k0 t).1.rps := by
        show (getLimiter rl k0 t).1.rps = (getLimiter rl2 k0 t).1.rps
        rw [getLimiter_rps, getLimiter_rps, hrps]
      have hfilt : ((k0, t) :: rest).filter (fun r => r.1 == k0) =
          (k0, t) :: rest.filter (fun r => r.1 == k0) := by
        rw [List.filter_cons, if_pos (by simp)]
      rw [hfilt]
      simp only [runLimiter]
      rw [List.filter_cons, if_pos (by simp)]
      rw [hout, ih (limitRequest rl k0 t).1 (limitRequest rl2 k0 t).1 hrps2 hlk2]
    · have hko : (k0 == k) = false := beq_false_of_ne hk
      have hfilt : ((k0, t) :: rest).filter (fun r => r.1 == k) =
          rest.filter (fun r => r.1 == k) := by
        rw [List.filter_cons, if_neg (by simp [hko])]
      rw [hfilt]
      simp only [runLimiter]
      rw [List.filter_cons, if_neg (by simp [hko])]
      obtain ⟨hpres, hrpres⟩ := limitRequest_other rl k0 t k
        (fun he => hk he.symm)
      exact ih (limitRequest rl k0 t).1 rl2 (by rw [hrpres]; exact hrps)
        (by rw [hpres]; exact hlk)

/-- C8: from a fresh limiter, more than `rps` same-instant requests for one
key include at least one 429 rejection, and the outcomes any trace produces
for a key are exactly those of running that key's requests alone — each key
has its own lazily created, independent bucket. -/
theorem rate_limiter_burst_and_key_isolation (rps : ℕ) (t0 : ℚ) (n : ℕ)
    (k : String) (hrps : 0 < rps) (hn : rps < n) :
    (∃ o ∈ (runLimiter (newRateLimiter rps) (List.replicate n (k, t0))).2,
      o = (k, false)) ∧
    (∀ (tr : List (String × ℚ)) (k2 : String),
      (runLimiter (newRateLimiter rps) tr).2.filter (fun o => o.1 == k2) =
        (runLimiter (newRateLimiter rps) (tr.filter (fun r => r.1 == k2))).2) := by
  constructor
  · exact runLimiter_exhausts_fresh k t0 rps n (newRateLimiter rps) rfl
      (by simp [newRateLimiter, List.lookup]) hrps (by exact_mod_cast hn)
  · intro tr k2
    exact runLimiter_filter_key k2 tr (newRateLimiter rps)
      (newRateLimiter rps) rfl rfl

theorem rate_limiter_burst_and_key_isolation_witness :
    ∃ o ∈ (runLimiter (newRateLimiter 1) (List.replicate 2 ("A", 0))).2,
      o = ("A", false) :=
  (rate_limiter_burst_and_key_isolation 1 0 2 "A" (by norm_num)
    (by norm_num)).1

/-- A value stored in the gin request context by `Context.Set`
(`interface\x7b\x7d` in Go): here either a string or an int. -/
inductive CtxVal where
  | str (s : String)
  | int (n : ℤ)
deriving DecidableEq, Repr

/-- `gin.Context.GetInt`: type-asserts the stored value to `int`, yielding
0 when the key is absent or the value is not an `int`. -/
def ctxGetInt (ctx : List (String × CtxVal)) (key : String) : ℤ :=
  match ctx.lookup key with
  | some (.int n) => n
  | _ => 0

inductive ApiError where
  | unauthorized
deriving DecidableEq, Repr

/-- `Handler.AuthMiddleware`: reject an empty `X-User-ID` header with 401,
otherwise store the header string (not an int) under context key
`userID`. -/
def AuthMiddleware (header : String) :
    Except ApiError (List (String × CtxVal)) :=
  if header = "" then .error .unauthorized
  else .ok [("userID", .str header)]

/-- A row of the `watchlist` table. -/
structure WatchRow where
  userId : ℤ
  symbol : String
  addedAt : ℤ
deriving DecidableEq, Repr

/-- Ordering used by `ORDER BY w.added_at DESC`. -/
def addedAtGE (a b : WatchRow) : Prop := b.addedAt ≤ a.addedAt

instance : DecidableRel addedAtGE :=
  fun a b => inferInstanceAs (Decidable (b.addedAt ≤ a.addedAt))

/-- `Database.GetWatchlist`: the user's rows ordered by `added_at`
descending, each left-joined to its symbol's latest quote (absent when the
symbol has never been stored). -/
def GetWatchlist (stocks : Rows) (wl : List WatchRow) (uid : ℤ) :
    List (String × Option (ℚ × ℤ)) :=
  ((wl.filter (fun w => w.userId == uid)).insertionSort addedAtGE).map
    (fun w => (w.symbol,
      (maxTsRow (symbolRows stocks w.symbol)).map
        (fun r => (r.price, r.timestamp))))

/-- `Handler.GetWatchlist` behind `AuthMiddleware`: the middleware stores
the `X-User-ID` header string, the handler reads it back with `GetInt` and
queries the store with the resulting id. -/
def handleGetWatchlist (stocks : Rows) (wl : List WatchRow)
    (header : String) :
    Except ApiError (List (String × Option (ℚ × ℤ))) :=
  match AuthMiddleware header with
  | .error e => .error e
  | .ok ctx => .ok (GetWatchlist stocks wl (ctxGetInt ctx "userID"))

/-- C9: every authenticated watchlist request is answered with the
watchlist of user id 0, whatever non-empty `X-User-ID` header it carries —
`GetInt` yields 0 on the stored string — so two requests differing only in
their headers get identical responses. -/
theorem watchlist_ignores_user_header (stocks : Rows) (wl : List WatchRow)
    (h1 h2 : String) (hh1 : h1 ≠ "") (hh2 : h2 ≠ "") :
    handleGetWatchlist stocks wl h1 = handleGetWatchlist stocks wl h2 ∧
    handleGetWatchlist stocks wl h1 =
      .ok (GetWatchlist stocks wl 0) := by
  have key : ∀ h : String, h ≠ "" →
      handleGetWatchlist stocks wl h = .ok (GetWatchlist stocks wl 0) := by
    intro h hh
    unfold handleGetWatchlist AuthMiddleware
    rw [if_neg hh]
    simp [ctxGetInt, List.lookup]
  exact ⟨(key h1 hh1).trans (key h2 hh2).symm, key h1 hh1⟩

theorem watchlist_ignores_user_header_witness :
    handleGetWatchlist [⟨"AAPL", 150, 1⟩] [⟨5, "AAPL", 3⟩] "5" =
        handleGetWatchlist [⟨"AAPL", 150, 1⟩] [⟨5, "AAPL", 3⟩] "7" ∧
    handleGetWatchlist [⟨"AAPL", 150, 1⟩] [⟨5, "AAPL", 3⟩] "5" =
      .ok (GetWatchlist [⟨"AAPL", 150, 1⟩] [⟨5, "AAPL", 3⟩] 0) :=
  watchlist_ignores_user_header [⟨"AAPL", 150, 1⟩] [⟨5, "AAPL", 3⟩]
    "5" "7" (by decide) (by decide)

end Volatria
